import Mathlib

/-!
Verification of the research-orchestrator backend (`agent/graph.py`,
`agent/utils.py`) against its natural-language specification.

Python strings are embedded as `List Char`; Python `str.replace`,
`"sep".join`, f-string decimal rendering and stable `sorted` are modelled
by executable Lean functions below.  Each graph node of `graph.py` becomes
a pure Lean function over explicit inputs (search responses, vector-store
outcomes, reflection verdicts), and the LangGraph loop becomes a
fuel-indexed step function.
-/

/-- Python strings, embedded as lists of characters. -/
abbrev Str := List Char

/-- Auxiliary for decimal rendering: fuel-indexed so that it is structural
and evaluates inside the kernel.  Mirrors Python `str(n)` digit by digit. -/
def numStrAux (fuel n : Nat) : Str :=
  match fuel with
  | 0 => []
  | fuel + 1 =>
    if n < 10 then [Nat.digitChar n]
    else numStrAux fuel (n / 10) ++ [Nat.digitChar (n % 10)]

/-- Python `str(n)` for a non-negative integer `n` (decimal, no sign). -/
def numStr (n : Nat) : Str := numStrAux (n + 1) n

/-- Parse a decimal digit string back to a number (proof tool for
injectivity of `numStr`). -/
def parseDec (s : Str) : Nat := s.foldl (fun acc c => acc * 10 + (c.toNat - 48)) 0

/-- Auxiliary for Python `str.replace` with a non-empty pattern: scan the
text left to right, replacing every (non-overlapping) occurrence of `pat`
by `rep`.  Fuel-indexed to stay structural; fuel `s.length` suffices. -/
def repAux (pat rep : Str) : Nat → Str → Str
  | 0, s => s
  | fuel + 1, s =>
    match s with
    | [] => []
    | c :: rest =>
      if pat.isPrefixOf s then rep ++ repAux pat rep fuel (s.drop pat.length)
      else c :: repAux pat rep fuel rest

/-- Python `s.replace(pat, rep)`: replaces every non-overlapping occurrence
of `pat` in `s` by `rep`, scanning left to right.  For the empty pattern,
Python inserts `rep` before every character and at the end. -/
def replaceAll (s pat rep : Str) : Str :=
  if pat = [] then rep ++ s.flatMap (fun c => c :: rep)
  else repAux pat rep s.length s

/-! ## Conversation messages and `get_research_topic` (`agent/utils.py`) -/

/-- Message roles: LangChain `HumanMessage`, `AIMessage`, or any other
message type (`SystemMessage`, `ToolMessage`, ...). -/
inductive Role
  | human
  | ai
  | other
deriving DecidableEq

structure Message where
  role : Role
  content : Str
deriving DecidableEq

/-- `get_research_topic` from `agent/utils.py`: a single message yields its
content; otherwise human/AI messages are concatenated with role prefixes
(other message types are skipped by the `isinstance` chain). -/
def get_research_topic (messages : List Message) : Str :=
  if messages.length = 1 then
    (messages.getLast?).elim ([] : Str) Message.content
  else
    messages.foldl (fun acc m =>
      match m.role with
      | Role.human => acc ++ "User: ".data ++ m.content ++ ['\n']
      | Role.ai => acc ++ "Assistant: ".data ++ m.content ++ ['\n']
      | Role.other => acc) []

/-- Modelled from the spec: the "role-prefixed concatenation in
chronological order" of a message history — one line per message, the role
prefix, the content, then a newline. -/
def rolePrefixedLine (m : Message) : Str :=
  (match m.role with
   | Role.human => "User: ".data
   | Role.ai => "Assistant: ".data
   | Role.other => "Other: ".data) ++ m.content ++ ['\n']

/-- Modelled from the spec: concatenation policy for multi-message
histories. -/
def topicSpecConcat (messages : List Message) : Str :=
  (messages.map rolePrefixedLine).flatten

/-! ## `resolve_urls` (`agent/utils.py`) -/

/-- The fixed prefix used by `resolve_urls`. -/
def vertexStem : Str := "https://vertexaisearch.cloud.google.com/id/".data

/-- The short url `f"{prefix}{id}-{idx}"` built by `resolve_urls`. -/
def shortUrlOf (id idx : Nat) : Str :=
  vertexStem ++ numStr id ++ '-' :: numStr idx

/-- The `for idx, url in enumerate(urls)` loop of `resolve_urls`: a Python
dict preserving insertion order is modelled as an association list, and
`url not in resolved_map` as an absent key. -/
def resolveLoop (id : Nat) : Nat → List (Str × Str) → List Str → List (Str × Str)
  | _, acc, [] => acc
  | idx, acc, url :: rest =>
    if (acc.lookup url).isSome then resolveLoop id (idx + 1) acc rest
    else resolveLoop id (idx + 1) (acc ++ [(url, shortUrlOf id idx)]) rest

/-- `resolve_urls` from `agent/utils.py`, applied to the extracted uri list
(`[site.web.uri for site in urls_to_resolve]`). -/
def resolve_urls (urls : List Str) (id : Nat) : List (Str × Str) :=
  resolveLoop id 0 [] urls

/-- Index of the first occurrence of `u` in `urls` (length of the list if
absent). -/
def firstIdx (urls : List Str) (u : Str) : Nat :=
  match urls with
  | [] => 0
  | v :: rest => if u = v then 0 else firstIdx rest u + 1

/-! ## `web_research` and `knowledge_base_research` (`agent/graph.py`) -/

structure WebItem where
  link : Str
  title : Str
  snippet : Str
deriving DecidableEq

/-- A gathered source dict `{"value", "short_url", "label"}`. -/
structure Source where
  value : Str
  short_url : Str
  label : Str
deriving DecidableEq

/-- `f"[{idx}]"`, the short url a web result at position `idx` gets. -/
def webMarker (idx : Nat) : Str := '[' :: numStr idx ++ [']']

/-- `title if title else f"Source {idx + 1}"`. -/
def webLabel (idx : Nat) (title : Str) : Str :=
  if title ≠ [] then title else "Source ".data ++ numStr (idx + 1)

/-- The `for idx, item in enumerate(search_results)` loop of `web_research`:
items with a non-empty link are appended to `sources_gathered` and every
occurrence of the link in the running text is replaced by `f"[{idx}]"`. -/
def webLoop (idx : Nat) (text : Str) (srcs : List Source) :
    List WebItem → Str × List Source
  | [] => (text, srcs)
  | item :: rest =>
    if item.link ≠ [] then
      webLoop (idx + 1) (replaceAll text item.link (webMarker idx))
        (srcs ++ [⟨item.link, webMarker idx, webLabel idx item.title⟩]) rest
    else
      webLoop (idx + 1) text srcs rest

/-- `"\n".join(...)`. -/
def joinNL (l : List Str) : Str := List.intercalate ['\n'] l

structure WebUpdate where
  sources_gathered : List Source
  search_query : List Str
  web_research_result : List Str
deriving DecidableEq

/-- The successful path of `web_research`: join the snippets, then run the
enumeration loop. -/
def webResearchOk (q : Str) (items : List WebItem) : WebUpdate :=
  ⟨(webLoop 0 (joinNL (items.map WebItem.snippet)) [] items).2, [q],
    [(webLoop 0 (joinNL (items.map WebItem.snippet)) [] items).1]⟩

/-- `web_research` from `agent/graph.py`.  The `except` clause re-raises
(`raise`), modelled as propagating the error. -/
def web_research (q : Str) (response : Except Str (List WebItem)) :
    Except Str WebUpdate :=
  match response with
  | .error e => .error e
  | .ok items => .ok (webResearchOk q items)

/-- The gathered sources of one successful web task. -/
def webSources (items : List WebItem) : List Source :=
  (webResearchOk [] items).sources_gathered

/-- The final finding text of one successful web task. -/
def webText (items : List WebItem) : Str :=
  (webLoop 0 (joinNL (items.map WebItem.snippet)) [] items).1

/-- A knowledge-base document as used by `knowledge_base_research`.  The
`:.3f`-rendered score is carried as pre-rendered text (`scoreStr`), since
no claim concerns float formatting. -/
structure KBDoc where
  source : Str
  content : Str
  scoreStr : Str
  docId : Str
  filename : Option Str
deriving DecidableEq

/-- `f"[KB-{i}]"`. -/
def kbMarker (i : Nat) : Str := "[KB-".data ++ numStr i ++ [']']

/-- `doc.get('metadata', {}).get('filename', f"doc_{doc['id']}")`. -/
def kbLabel (d : KBDoc) : Str := d.filename.getD ("doc_".data ++ d.docId)

/-- The `for idx, doc in enumerate(documents)` loop of
`knowledge_base_research`: append the three formatted lines, append the
source entry, then replace the document content in the whole text built so
far by its 200-char truncation plus `[KB-{idx+1}]`. -/
def kbLoop (idx : Nat) (formatted : Str) (srcs : List Source) :
    List KBDoc → Str × List Source
  | [] => (formatted, srcs)
  | d :: rest =>
    kbLoop (idx + 1)
      (replaceAll
        (formatted ++ "Document ".data ++ numStr (idx + 1) ++ " (Score: ".data ++
          d.scoreStr ++ "):\n".data ++ "Source: ".data ++ d.source ++ ['\n'] ++
          "Content: ".data ++ d.content ++ "\n\n".data)
        d.content
        (d.content.take 200 ++ "... ".data ++ kbMarker (idx + 1)))
      (srcs ++ [⟨d.source, kbMarker (idx + 1), kbLabel d⟩]) rest

inductive KBFail
  | tunnelFail
  | queryErr (msg : Str) (timeout : Bool)
  | exn (msg : Str)
deriving DecidableEq

inductive KBOutcome
  | fail (f : KBFail)
  | docs (documents : List KBDoc)
deriving DecidableEq

structure KBUpdate where
  sources_gathered : List Source
  search_query : List Str
  web_research_result : List Str
  kb_search_status : Str
  kb_search_progress : Str
deriving DecidableEq

/-- `knowledge_base_research` from `agent/graph.py`: every failure shape
(tunnel failure, query error/timeout, empty results, unexpected exception)
is caught and turned into a placeholder update; only the success path
gathers sources. -/
def knowledge_base_research (q : Str) (outcome : KBOutcome) : KBUpdate :=
  match outcome with
  | .fail .tunnelFail =>
      ⟨[], [q], ["SSH tunnel connection failed".data], "failed".data,
        "SSH tunnel connection failed".data⟩
  | .fail (.queryErr msg timeout) =>
      if timeout then
        ⟨[], [q], ["Vector database search timed out after 30 seconds".data],
          "timeout".data, msg⟩
      else
        ⟨[], [q], ["Knowledge base search error: ".data ++ msg], "error".data, msg⟩
  | .fail (.exn msg) =>
      ⟨[], [q], ["Knowledge base search error: ".data ++ msg], "error".data, msg⟩
  | .docs documents =>
      if documents.isEmpty then
        ⟨[], [q], ["No relevant documents found in knowledge base for this query.".data],
          "completed".data, "Search completed - no relevant documents found".data⟩
      else
        ⟨(kbLoop 0 ("Knowledge Base Search Results (Found ".data ++
            numStr documents.length ++ " documents):\n\n".data) [] documents).2,
          [q],
          [(kbLoop 0 ("Knowledge Base Search Results (Found ".data ++
            numStr documents.length ++ " documents):\n\n".data) [] documents).1],
          "completed".data,
          "Successfully found ".data ++ numStr documents.length ++
            " relevant documents".data⟩

/-! ## The research loop (`continue_to_web_research`, `reflection`,
`evaluate_research` in `agent/graph.py`) -/

/-- The `Reflection` structured output. -/
structure Verdict where
  is_sufficient : Bool
  knowledge_gap : Str
  follow_up_queries : List Str

inductive NodeKind
  | web
  | kb
deriving DecidableEq

/-- One `Send(node, {"search_query": ..., "id": ...})`. -/
structure SendTask where
  node : NodeKind
  id : Nat
  query : Str
deriving DecidableEq

/-- The `for idx, search_query in enumerate(state["query_list"])` loop of
`continue_to_web_research`: ids `idx * 2` (web) and `idx * 2 + 1` (kb). -/
def continueSendLoop (idx : Nat) : List Str → List SendTask
  | [] => []
  | q :: rest =>
    ⟨NodeKind.web, idx * 2, q⟩ :: ⟨NodeKind.kb, idx * 2 + 1, q⟩ ::
      continueSendLoop (idx + 1) rest

def continue_to_web_research (query_list : List Str) : List SendTask :=
  continueSendLoop 0 query_list

/-- The follow-up fan-out loop of `evaluate_research`:
`base_id = number_of_ran_queries + idx * 2`, web gets `base_id`, kb gets
`base_id + 1`. -/
def followupSendLoop (number_of_ran_queries idx : Nat) : List Str → List SendTask
  | [] => []
  | q :: rest =>
    ⟨NodeKind.web, number_of_ran_queries + idx * 2, q⟩ ::
    ⟨NodeKind.kb, number_of_ran_queries + idx * 2 + 1, q⟩ ::
      followupSendLoop number_of_ran_queries (idx + 1) rest

inductive RouteResult
  | finalize
  | fanout (sends : List SendTask)
deriving DecidableEq

/-- The round-counter increment performed by `reflection`:
`state.get("research_loop_count", 0) + 1`. -/
def reflectionLoopCount (research_loop_count : Option Nat) : Nat :=
  research_loop_count.getD 0 + 1

/-- `evaluate_research` from `agent/graph.py`: finalize when the verdict is
sufficient or the loop count reached `max_research_loops`; otherwise fan
out two research tasks per follow-up query. -/
def evaluate_research (is_sufficient : Bool) (research_loop_count : Nat)
    (number_of_ran_queries : Nat) (max_research_loops : Nat)
    (follow_up_queries : List Str) : RouteResult :=
  if is_sufficient ∨ max_research_loops ≤ research_loop_count then
    RouteResult.finalize
  else
    RouteResult.fanout (followupSendLoop number_of_ran_queries 0 follow_up_queries)

inductive LoopOutcome
  | finalized (rounds : Nat)
  | halted (rounds : Nat)
  | outOfFuel
deriving DecidableEq

/-- Rounds executed before the loop stopped (0 for `outOfFuel`). -/
def roundsOf : LoopOutcome → Nat
  | .finalized c => c
  | .halted c => c
  | .outOfFuel => 0

/-- The reflection/evaluate cycle of the compiled graph, driven by an
abstract stream of reflection verdicts.  `k` is the loop count before this
round's reflection, `nq` the length of the accumulated `search_query`
list.  An empty `Send` list from `evaluate_research` leaves the graph with
no node to run, so the run ends without reaching `finalize_answer`
(`halted`).  Fuel-indexed to stay structural; fuel `max + 1` suffices. -/
def runFuel (verdicts : Nat → Verdict) (max_research_loops : Nat) :
    Nat → Nat → Nat → LoopOutcome
  | 0, _, _ => .outOfFuel
  | fuel + 1, k, nq =>
    match evaluate_research (verdicts k).is_sufficient (reflectionLoopCount (some k))
        nq max_research_loops (verdicts k).follow_up_queries with
    | .finalize => .finalized (reflectionLoopCount (some k))
    | .fanout [] => .halted (reflectionLoopCount (some k))
    | .fanout (_ :: _) =>
        runFuel verdicts max_research_loops fuel (reflectionLoopCount (some k))
          (nq + (verdicts k).follow_up_queries.length * 2)

/-- A full run of the loop from the first reflection on; `nq0` is the
`search_query` accumulator length after the initial round. -/
def runLoop (verdicts : Nat → Verdict) (max_research_loops nq0 : Nat) : LoopOutcome :=
  runFuel verdicts max_research_loops (max_research_loops + 1) 0 nq0

/-- The loop count after `N` completed reflection calls. -/
def counterAfter : Nat → Nat
  | 0 => 0
  | n + 1 => reflectionLoopCount (some (counterAfter n))

/-- Modelled from the spec: the per-round `search_query` accumulation
(`operator.add` reducer of `OverallState`, whose module is outside the
provided sources; the spec describes the state sequences as append-only).
Each of the `2 * len(queries)` tasks of a round appends one entry, so the
follow-up rounds start numbering at `nq + r.length * 2` of the previous
accumulator value `nq`. -/
def followRounds (nq : Nat) : List (List Str) → List SendTask
  | [] => []
  | r :: rest => followupSendLoop nq 0 r ++ followRounds (nq + r.length * 2) rest

/-- All tasks spawned over a whole run: the initial round through
`continue_to_web_research`, each later round through the fan-out branch of
`evaluate_research`. -/
def graphRunSends : List (List Str) → List SendTask
  | [] => []
  | r0 :: rest => continue_to_web_research r0 ++ followRounds (r0.length * 2) rest

/-! ## The §8 scenario: 2 initial queries, maxRounds = 1, web succeeds with
sources u1,u2 / u1,u3 and the knowledge base times out on both queries. -/

def c6Q1 : Str := "q1".data

def c6Q2 : Str := "q2".data

def c6Items1 : List WebItem :=
  [⟨"u1".data, "t1".data, "a".data⟩, ⟨"u2".data, "t2".data, "b".data⟩]

def c6Items2 : List WebItem :=
  [⟨"u1".data, "t1".data, "c".data⟩, ⟨"u3".data, "t3".data, "d".data⟩]

def c6KB : KBOutcome := .fail (.queryErr "Request timeout".data true)

/-- All sources gathered in the round, merged over the four tasks in fan-out
order. -/
def c6Sources : List Source :=
  (webResearchOk c6Q1 c6Items1).sources_gathered ++
  (knowledge_base_research c6Q1 c6KB).sources_gathered ++
  (webResearchOk c6Q2 c6Items2).sources_gathered ++
  (knowledge_base_research c6Q2 c6KB).sources_gathered

/-- The accumulated `search_query` entries of the round (one per task). -/
def c6SearchQueries : List Str :=
  (webResearchOk c6Q1 c6Items1).search_query ++
  (knowledge_base_research c6Q1 c6KB).search_query ++
  (webResearchOk c6Q2 c6Items2).search_query ++
  (knowledge_base_research c6Q2 c6KB).search_query

/-! ## Marker substitution properties (claim C7) -/

/-- Characters that can occur in a `[idx]` marker. -/
def isMarkerChar (c : Char) : Bool := c = '[' || c = ']' || c.isDigit

/-! ## `insert_citation_markers` (`agent/utils.py`, claim C9) -/

structure Segment where
  label : Str
  short_url : Str
deriving DecidableEq

structure Citation where
  start_index : Nat
  end_index : Nat
  segments : List Segment
deriving DecidableEq

/-- The `marker_to_insert` accumulated for one citation:
`f" [{segment['label']}]({segment['short_url']})"` per segment. -/
def markerOf (c : Citation) : Str :=
  c.segments.flatMap (fun s => " [".data ++ s.label ++ "](".data ++ s.short_url ++ [')'])

/-- One insertion step: `modified_text[:end_idx] + marker + modified_text[end_idx:]`. -/
def insertMarker (text : Str) (c : Citation) : Str :=
  text.take c.end_index ++ markerOf c ++ text.drop c.end_index

/-- `key=lambda c: (c["end_index"], c["start_index"])` compared descending:
`a` sorts no later than `b`. -/
def keyGE (a b : Citation) : Bool :=
  decide (b.end_index < a.end_index ∨
    (b.end_index = a.end_index ∧ b.start_index ≤ a.start_index))

/-- Stable insertion into a descending-sorted list: the new element goes
after every element with a greater-or-equal key, as Python's stable
`sorted(..., reverse=True)` orders equal keys. -/
def insDesc (c : Citation) : List Citation → List Citation
  | [] => [c]
  | d :: rest => if keyGE d c then d :: insDesc c rest else c :: d :: rest

/-- Python's `sorted(citations_list, key=..., reverse=True)`. -/
def sortDesc (l : List Citation) : List Citation :=
  l.foldl (fun acc c => insDesc c acc) []

/-- `insert_citation_markers` from `agent/utils.py`: sort by
`(end_index, start_index)` descending, then insert each marker at its
original `end_index`. -/
def insert_citation_markers (text : Str) (citations_list : List Citation) : Str :=
  (sortDesc citations_list).foldl insertMarker text

/-- The markers of the citations of `L` whose `end_index` is `off`, in the
order of `L`. -/
def endMarkersAt (off : Nat) (L : List Citation) : Str :=
  (L.filter (fun c => c.end_index == off)).flatMap markerOf

/-- Modelled from the claim's words: "the original text with each
citation's markers inserted at that citation's original `end_index`
position" — walk the original text and before each character (and at the
very end) emit the markers of the citations ending at that boundary. -/
def spliceSpec (off : Nat) (text : Str) (L : List Citation) : Str :=
  endMarkersAt off L ++
    match text with
    | [] => []
    | ch :: rest => ch :: spliceSpec (off + 1) rest L

/-- The citations in ascending `(end_index, start_index)` order (the
reverse of the implementation's descending sort). -/
def ascOrder (citations_list : List Citation) : List Citation :=
  (sortDesc citations_list).reverse

/-! ## Theorems -/

theorem digitChar_val {d : Nat} (h : d < 10) : (Nat.digitChar d).toNat - 48 = d := by
  interval_cases d <;> rfl

theorem digitChar_isDigit {d : Nat} (h : d < 10) : (Nat.digitChar d).isDigit = true := by
  interval_cases d <;> rfl

theorem parseDec_append_digit (s : Str) (c : Char) :
    parseDec (s ++ [c]) = parseDec s * 10 + (c.toNat - 48) := by
  simp [parseDec, List.foldl_append]

theorem parseDec_numStrAux : ∀ fuel n, n < fuel → parseDec (numStrAux fuel n) = n := by
  intro fuel
  induction fuel with
  | zero => intro n h; omega
  | succ fuel ih =>
    intro n h
    by_cases h10 : n < 10
    · simp [numStrAux, h10, parseDec, digitChar_val h10]
    · have hdiv : n / 10 < fuel := by
        have h1 : n / 10 < n := Nat.div_lt_self (by omega) (by omega)
        omega
      simp only [numStrAux, if_neg h10]
      rw [parseDec_append_digit, ih _ hdiv, digitChar_val (Nat.mod_lt _ (by omega))]
      omega

theorem parseDec_numStr (n : Nat) : parseDec (numStr n) = n :=
  parseDec_numStrAux (n + 1) n (Nat.lt_succ_self n)

theorem numStr_injective : Function.Injective numStr := by
  intro a b h
  have := parseDec_numStr a
  rw [h, parseDec_numStr] at this
  omega

theorem numStrAux_digits : ∀ fuel n c, c ∈ numStrAux fuel n → c.isDigit = true := by
  intro fuel
  induction fuel with
  | zero => intro n c h; simp [numStrAux] at h
  | succ fuel ih =>
    intro n c h
    by_cases h10 : n < 10
    · simp [numStrAux, h10] at h
      simpa [h] using digitChar_isDigit h10
    · simp only [numStrAux, if_neg h10, List.mem_append, List.mem_singleton] at h
      rcases h with h | h
      · exact ih _ _ h
      · simpa [h] using digitChar_isDigit (Nat.mod_lt _ (by omega))

theorem numStr_digits {n : Nat} {c : Char} (h : c ∈ numStr n) : c.isDigit = true :=
  numStrAux_digits _ _ _ h

theorem repAux_fuel_irrelevant (pat rep : Str) (hpat : pat ≠ []) :
    ∀ fuel fuel' s, s.length ≤ fuel → s.length ≤ fuel' →
      repAux pat rep fuel s = repAux pat rep fuel' s := by
  intro fuel
  induction fuel with
  | zero =>
    intro fuel' s hs hs'
    have : s = [] := List.eq_nil_of_length_eq_zero (Nat.le_zero.mp hs)
    subst this
    cases fuel' <;> simp [repAux]
  | succ fuel ih =>
    intro fuel' s hs hs'
    match s with
    | [] => cases fuel' <;> simp [repAux]
    | c :: rest =>
      match fuel' with
      | 0 => simp at hs'
      | fuel' + 1 =>
        have hplen : 1 ≤ pat.length := by
          cases pat with
          | nil => exact absurd rfl hpat
          | cons a l => simp
        simp only [repAux]
        by_cases hp : pat.isPrefixOf (c :: rest)
        · simp only [if_pos hp]
          congr 1
          apply ih
          · simp only [List.length_drop, List.length_cons]
            simp only [List.length_cons] at hs
            omega
          · simp only [List.length_drop, List.length_cons]
            simp only [List.length_cons] at hs'
            omega
        · simp only [if_neg hp]
          congr 1
          apply ih
          · simp only [List.length_cons] at hs; omega
          · simp only [List.length_cons] at hs'; omega

theorem topic_foldl (msgs : List Message) : ∀ acc : Str,
    (∀ m ∈ msgs, m.role ≠ Role.other) →
    msgs.foldl (fun acc m =>
      match m.role with
      | Role.human => acc ++ "User: ".data ++ m.content ++ ['\n']
      | Role.ai => acc ++ "Assistant: ".data ++ m.content ++ ['\n']
      | Role.other => acc) acc = acc ++ topicSpecConcat msgs := by
  induction msgs with
  | nil => intro acc _; simp [topicSpecConcat]
  | cons m rest ih =>
    intro acc h
    have hm := h m (List.mem_cons_self _ _)
    have hrest : ∀ x ∈ rest, x.role ≠ Role.other :=
      fun x hx => h x (List.mem_cons_of_mem _ hx)
    cases hr : m.role with
    | human =>
      simp only [List.foldl_cons, hr]
      rw [ih _ hrest]
      simp [topicSpecConcat, rolePrefixedLine, hr, List.append_assoc]
    | ai =>
      simp only [List.foldl_cons, hr]
      rw [ih _ hrest]
      simp [topicSpecConcat, rolePrefixedLine, hr, List.append_assoc]
    | other => exact absurd hr hm

/-- Claim C8 (confirmed): for a single-message history the research topic
is that message's content; for a longer history of human/AI messages it is
the role-prefixed concatenation of the messages in chronological order. -/
theorem c8_research_topic_policy :
    (∀ m : Message, get_research_topic [m] = m.content) ∧
    (∀ msgs : List Message, 1 < msgs.length →
      (∀ m ∈ msgs, m.role ≠ Role.other) →
      get_research_topic msgs = topicSpecConcat msgs) := by
  constructor
  · intro m
    simp [get_research_topic]
  · intro msgs hlen hroles
    have hne : msgs.length ≠ 1 := by omega
    simp only [get_research_topic, if_neg hne]
    rw [topic_foldl msgs [] hroles]
    simp

/-- Witness for C8 at a concrete two-message history. -/
theorem c8_research_topic_policy_witness :
    get_research_topic [⟨Role.human, "hi".data⟩, ⟨Role.ai, "yo".data⟩] =
      topicSpecConcat [⟨Role.human, "hi".data⟩, ⟨Role.ai, "yo".data⟩] :=
  c8_research_topic_policy.2
    [⟨Role.human, "hi".data⟩, ⟨Role.ai, "yo".data⟩]
    (by decide) (by decide)

theorem firstIdx_lt_length {urls : List Str} {u : Str} (h : u ∈ urls) :
    firstIdx urls u < urls.length := by
  induction urls with
  | nil => simp at h
  | cons v rest ih =>
    by_cases hu : u = v
    · simp [firstIdx, hu]
    · have : u ∈ rest := by
        rcases List.mem_cons.mp h with h1 | h1
        · exact absurd h1 hu
        · exact h1
      simp only [firstIdx, if_neg hu, List.length_cons]
      exact Nat.succ_lt_succ (ih this)

theorem get_firstIdx {urls : List Str} {u : Str} (h : u ∈ urls)
    (hlt : firstIdx urls u < urls.length) : urls.get ⟨firstIdx urls u, hlt⟩ = u := by
  induction urls with
  | nil => simp at h
  | cons v rest ih =>
    by_cases hu : u = v
    · simp [firstIdx, hu]
    · have hmem : u ∈ rest := by
        rcases List.mem_cons.mp h with h1 | h1
        · exact absurd h1 hu
        · exact h1
      have hlt' : firstIdx rest u < rest.length := firstIdx_lt_length hmem
      simp only [firstIdx, if_neg hu]
      simpa using ih hmem hlt'

theorem lookup_append_pairs (l₁ l₂ : List (Str × Str)) (u : Str) :
    (l₁ ++ l₂).lookup u = (l₁.lookup u).or (l₂.lookup u) := by
  induction l₁ with
  | nil => simp
  | cons p l₁ ih =>
    by_cases hu : u = p.1
    · simp [List.lookup, hu]
    · have hbeq : (u == p.1) = false := beq_false_of_ne hu
      simp [List.lookup, hbeq, ih]

theorem lookup_singleton_pair (u k : Str) (v : Str) :
    ([(k, v)].lookup u) = if u = k then some v else none := by
  by_cases hu : u = k
  · simp [List.lookup, hu]
  · have hbeq : (u == k) = false := beq_false_of_ne hu
    simp [List.lookup, hbeq, hu]

theorem lookup_isSome_iff_mem_keys (l : List (Str × Str)) (u : Str) :
    (l.lookup u).isSome ↔ u ∈ l.map Prod.fst := by
  induction l with
  | nil => simp
  | cons p l ih =>
    by_cases hu : u = p.1
    · simp [List.lookup, hu]
    · have hbeq : (u == p.1) = false := beq_false_of_ne hu
      simp [List.lookup, hbeq, hu, ih]

theorem lookup_resolveLoop (id : Nat) :
    ∀ (urls : List Str) (idx : Nat) (acc : List (Str × Str)) (u : Str),
    (resolveLoop id idx acc urls).lookup u =
      (acc.lookup u).or
        (if u ∈ urls then some (shortUrlOf id (idx + firstIdx urls u)) else none) := by
  intro urls
  induction urls with
  | nil => intro idx acc u; simp [resolveLoop]
  | cons url rest ih =>
    intro idx acc u
    by_cases hfound : (acc.lookup url).isSome
    · simp only [resolveLoop, if_pos hfound]
      rw [ih]
      by_cases hu : u = url
      · subst hu
        obtain ⟨v, hv⟩ := Option.isSome_iff_exists.mp hfound
        simp [hv]
      · have hidx : firstIdx (url :: rest) u = firstIdx rest u + 1 := by
          simp [firstIdx, hu]
        have harith : idx + (firstIdx rest u + 1) = idx + 1 + firstIdx rest u := by
          omega
        simp [List.mem_cons, hu, hidx, harith]
    · have hnone : acc.lookup url = none := Option.not_isSome_iff_eq_none.mp hfound
      simp only [resolveLoop, if_neg hfound]
      rw [ih, lookup_append_pairs, lookup_singleton_pair]
      by_cases hu : u = url
      · subst hu
        simp [hnone, firstIdx]
      · have hidx : firstIdx (url :: rest) u = firstIdx rest u + 1 := by
          simp [firstIdx, hu]
        have harith : idx + (firstIdx rest u + 1) = idx + 1 + firstIdx rest u := by
          omega
        cases hacc : acc.lookup u <;>
          simp [hu, List.mem_cons, hidx, harith]

theorem nodupKeys_resolveLoop (id : Nat) :
    ∀ (urls : List Str) (idx : Nat) (acc : List (Str × Str)),
    (acc.map Prod.fst).Nodup → ((resolveLoop id idx acc urls).map Prod.fst).Nodup := by
  intro urls
  induction urls with
  | nil => intro idx acc h; simpa [resolveLoop] using h
  | cons url rest ih =>
    intro idx acc h
    by_cases hfound : (acc.lookup url).isSome
    · simp only [resolveLoop, if_pos hfound]
      exact ih _ _ h
    · simp only [resolveLoop, if_neg hfound]
      apply ih
      have hnm : url ∉ acc.map Prod.fst := by
        rw [← lookup_isSome_iff_mem_keys]
        exact hfound
      simp [List.nodup_append, h, hnm]

theorem shortUrlOf_inj (id : Nat) {i j : Nat} (h : shortUrlOf id i = shortUrlOf id j) :
    i = j := by
  simp only [shortUrlOf, List.append_assoc] at h
  have h1 := List.append_cancel_left h
  have h2 := List.append_cancel_left h1
  have h3 : numStr i = numStr j := by
    simpa using h2
  exact numStr_injective h3

theorem firstIdx_inj_of_mem {urls : List Str} {u v : Str}
    (hu : u ∈ urls) (hv : v ∈ urls)
    (h : firstIdx urls u = firstIdx urls v) : u = v := by
  have hiu : firstIdx urls u < urls.length := firstIdx_lt_length hu
  have hiv : firstIdx urls v < urls.length := firstIdx_lt_length hv
  have h1 : urls.get ⟨firstIdx urls u, hiu⟩ = u := get_firstIdx hu hiu
  have h2 : urls.get ⟨firstIdx urls v, hiv⟩ = v := get_firstIdx hv hiv
  rw [← h1, ← h2]
  congr 1
  exact Fin.ext h

/-- Claim C10 (confirmed): `resolve_urls` returns a map whose keys are
exactly the distinct input URLs; each URL maps to the short URL built from
`id` and the index of its first occurrence, so distinct URLs get distinct
short URLs. -/
theorem c10_resolve_urls_first_occurrence (urls : List Str) (id : Nat) :
    (((resolve_urls urls id).map Prod.fst).Nodup) ∧
    (∀ u, u ∈ (resolve_urls urls id).map Prod.fst ↔ u ∈ urls) ∧
    (∀ u ∈ urls,
      (resolve_urls urls id).lookup u = some (shortUrlOf id (firstIdx urls u))) ∧
    (∀ u v, u ∈ urls → v ∈ urls → u ≠ v →
      (resolve_urls urls id).lookup u ≠ (resolve_urls urls id).lookup v) := by
  have hlook : ∀ u, (resolve_urls urls id).lookup u =
      if u ∈ urls then some (shortUrlOf id (firstIdx urls u)) else none := by
    intro u
    rw [resolve_urls, lookup_resolveLoop]
    simp
  refine ⟨?_, ?_, ?_, ?_⟩
  · exact nodupKeys_resolveLoop id urls 0 [] (by simp)
  · intro u
    rw [← lookup_isSome_iff_mem_keys, hlook]
    by_cases hu : u ∈ urls <;> simp [hu]
  · intro u hu
    rw [hlook]
    simp [hu]
  · intro u v hu hv hne
    rw [hlook, hlook]
    simp only [if_pos hu, if_pos hv]
    intro h
    have h1 : shortUrlOf id (firstIdx urls u) = shortUrlOf id (firstIdx urls v) := by
      simpa using h
    exact hne (firstIdx_inj_of_mem hu hv (shortUrlOf_inj id h1))

/-- Witness for C10 at a concrete input with a repeated URL. -/
theorem c10_resolve_urls_first_occurrence_witness :
    (resolve_urls ["a".data, "b".data, "a".data] 7).lookup "b".data =
        some (shortUrlOf 7 1) ∧
    (resolve_urls ["a".data, "b".data, "a".data] 7).lookup "a".data ≠
        (resolve_urls ["a".data, "b".data, "a".data] 7).lookup "b".data := by
  constructor
  · have h := (c10_resolve_urls_first_occurrence ["a".data, "b".data, "a".data] 7).2.2.1
      "b".data (by decide)
    simpa using h
  · exact (c10_resolve_urls_first_occurrence ["a".data, "b".data, "a".data] 7).2.2.2
      "a".data "b".data (by decide) (by decide) (by decide)

theorem webLoop_sources_accum :
    ∀ (items : List WebItem) (idx : Nat) (text : Str) (srcs : List Source),
    (webLoop idx text srcs items).2 = srcs ++ (webLoop idx text [] items).2 := by
  intro items
  induction items with
  | nil => intro idx text srcs; simp [webLoop]
  | cons item rest ih =>
    intro idx text srcs
    by_cases hl : item.link ≠ []
    · simp only [webLoop, if_pos hl]
      rw [ih _ _ (srcs ++ [_]), ih _ _ ([] ++ [_])]
      simp
    · simp only [webLoop, if_neg hl]
      exact ih _ _ _

theorem webMarker_inj {i j : Nat} (h : webMarker i = webMarker j) : i = j := by
  simp only [webMarker] at h
  injection h with h1 h2
  exact numStr_injective (List.append_cancel_right h2)

theorem webLoop_sources_marker :
    ∀ (items : List WebItem) (idx : Nat) (text : Str),
    ∀ s ∈ (webLoop idx text [] items).2, ∃ j, idx ≤ j ∧ s.short_url = webMarker j := by
  intro items
  induction items with
  | nil => intro idx text s hs; simp [webLoop] at hs
  | cons item rest ih =>
    intro idx text s hs
    by_cases hl : item.link ≠ []
    · simp only [webLoop, if_pos hl] at hs
      rw [webLoop_sources_accum] at hs
      rcases List.mem_append.mp hs with hs | hs
      · simp at hs
        exact ⟨idx, Nat.le_refl idx, by rw [hs]⟩
      · obtain ⟨j, hj, hsj⟩ := ih _ _ s hs
        exact ⟨j, by omega, hsj⟩
    · simp only [webLoop, if_neg hl] at hs
      obtain ⟨j, hj, hsj⟩ := ih _ _ s hs
      exact ⟨j, by omega, hsj⟩

/-- Claim C1 (corrected): within a single web retrieval task every gathered
source gets the fresh shortId of its own result-list position — even when
its canonicalValue is already present — so the assigned shortIds are
pairwise distinct and a repeated canonicalValue holds several of them. -/
theorem c1_register_allocates_fresh_short_ids (items : List WebItem) :
    ((webSources items).map Source.short_url).Nodup := by
  suffices h : ∀ (its : List WebItem) (idx : Nat) (text : Str),
      (((webLoop idx text [] its).2).map Source.short_url).Nodup by
    exact h items 0 _
  intro its
  induction its with
  | nil => intro idx text; simp [webLoop]
  | cons item rest ih =>
    intro idx text
    by_cases hl : item.link ≠ []
    · simp only [webLoop, if_pos hl]
      rw [webLoop_sources_accum]
      simp only [List.map_append, List.nil_append, List.map_cons, List.map_nil]
      rw [List.singleton_append, List.nodup_cons]
      refine ⟨?_, ih _ _⟩
      intro hmem
      obtain ⟨s, hs, hss⟩ := List.mem_map.mp hmem
      obtain ⟨j, hj, hsj⟩ := webLoop_sources_marker rest (idx + 1) _ s hs
      rw [hsj] at hss
      have := webMarker_inj hss
      omega
    · simp only [webLoop, if_neg hl]
      exact ih _ _

/-- Counterexample to claim C1 as stated: one web task whose result list
holds the same URL at positions 0 and 2 registers it twice, with two
different shortIds (`[0]` and `[2]`). -/
theorem c1_counterexample :
    ((webSources [⟨"u".data, "t".data, "s".data⟩, ⟨"v".data, "t".data, "s".data⟩,
        ⟨"u".data, "t".data, "s".data⟩]).map (fun s => (s.value, s.short_url))) =
      [("u".data, "[0]".data), ("v".data, "[1]".data), ("u".data, "[2]".data)] ∧
    ("[0]".data : Str) ≠ "[2]".data := by
  decide

/-- Claim C2 (corrected): every knowledge-base retrieval failure is
recovered locally into a placeholder update with no sources, while a web
retrieval failure is re-raised and propagates out of the retrieval step. -/
theorem c2_kb_recovers_web_raises :
    (∀ (q : Str) (f : KBFail),
      (knowledge_base_research q (.fail f)).sources_gathered = [] ∧
      (knowledge_base_research q (.fail f)).search_query = [q] ∧
      (knowledge_base_research q (.fail f)).web_research_result.length = 1) ∧
    (∀ q e : Str, web_research q (.error e) = .error e) := by
  constructor
  · intro q f
    cases f with
    | tunnelFail => simp [knowledge_base_research]
    | queryErr msg timeout => cases timeout <;> simp [knowledge_base_research]
    | exn msg => simp [knowledge_base_research]
  · intro q e
    rfl

/-- Counterexample to claim C2 as stated: a failing web retrieval task does
not produce a placeholder finding — the exception propagates. -/
theorem c2_counterexample :
    web_research "q".data (.error "boom".data) = .error "boom".data ∧
    (∀ u : WebUpdate, web_research "q".data (.error "boom".data) ≠ .ok u) := by
  constructor
  · rfl
  · intro u h
    simp [web_research] at h

theorem evaluate_research_finalize_iff (s : Bool) (c nq m : Nat) (qs : List Str) :
    evaluate_research s c nq m qs = RouteResult.finalize ↔ (s = true ∨ m ≤ c) := by
  by_cases h : (s : Prop) ∨ m ≤ c
  · simp only [evaluate_research, if_pos h]
    simpa using h
  · simp only [evaluate_research, if_neg h]
    constructor
    · intro hc; cases hc
    · intro hc; exact absurd (by simpa using hc) h

theorem evaluate_research_fanout_cond {s : Bool} {c nq m : Nat} {qs : List Str}
    {sends : List SendTask}
    (h : evaluate_research s c nq m qs = RouteResult.fanout sends) :
    ¬(s = true ∨ m ≤ c) := by
  intro hcond
  have : evaluate_research s c nq m qs = RouteResult.finalize :=
    (evaluate_research_finalize_iff s c nq m qs).mpr hcond
  rw [this] at h
  cases h

theorem runFuel_not_outOfFuel (verdicts : Nat → Verdict) (m : Nat) :
    ∀ fuel k nq, m ≤ k + fuel →
      runFuel verdicts m (fuel + 1) k nq ≠ LoopOutcome.outOfFuel := by
  intro fuel
  induction fuel with
  | zero =>
    intro k nq hk
    simp only [runFuel]
    cases hev : evaluate_research (verdicts k).is_sufficient
        (reflectionLoopCount (some k)) nq m (verdicts k).follow_up_queries with
    | finalize => simp
    | fanout sends =>
      cases sends with
      | nil => simp
      | cons a l =>
        have := evaluate_research_fanout_cond hev
        simp only [reflectionLoopCount, Option.getD_some] at this
        omega
  | succ fuel ih =>
    intro k nq hk
    simp only [runFuel]
    cases hev : evaluate_research (verdicts k).is_sufficient
        (reflectionLoopCount (some k)) nq m (verdicts k).follow_up_queries with
    | finalize => simp
    | fanout sends =>
      cases sends with
      | nil => simp
      | cons a l =>
        exact ih (reflectionLoopCount (some k)) _ (by
          simp only [reflectionLoopCount, Option.getD_some]
          omega)

theorem runFuel_rounds_bounds (verdicts : Nat → Verdict) (m : Nat) :
    ∀ fuel k nq c,
      (runFuel verdicts m fuel k nq = LoopOutcome.finalized c ∨
       runFuel verdicts m fuel k nq = LoopOutcome.halted c) →
      k + 1 ≤ c ∧ c ≤ max m (k + 1) := by
  intro fuel
  induction fuel with
  | zero =>
    intro k nq c h
    simp only [runFuel] at h
    rcases h with h | h <;> cases h
  | succ fuel ih =>
    intro k nq c h
    simp only [runFuel] at h
    cases hev : evaluate_research (verdicts k).is_sufficient
        (reflectionLoopCount (some k)) nq m (verdicts k).follow_up_queries with
    | finalize =>
      rw [hev] at h
      simp only [reflectionLoopCount, Option.getD_some] at h
      rcases h with h | h
      · cases h
        constructor <;> omega
      · cases h
    | fanout sends =>
      cases sends with
      | nil =>
        rw [hev] at h
        simp only [reflectionLoopCount, Option.getD_some] at h
        rcases h with h | h
        · cases h
        · cases h
          constructor <;> omega
      | cons a l =>
        rw [hev] at h
        have hcond := evaluate_research_fanout_cond hev
        simp only [reflectionLoopCount, Option.getD_some] at hcond h
        have := ih (k + 1) (nq + (verdicts k).follow_up_queries.length * 2) c h
        constructor <;> omega

/-- Claim C3 (corrected): for any verdict stream the loop halts within
`maxRounds + 1` rounds, but an insufficient verdict with an empty
`followUpQueries` list ends the run with no node left to execute, i.e.
without passing through finalization. -/
theorem c3_loop_halts_within_budget (verdicts : Nat → Verdict) (m nq0 : Nat) :
    runLoop verdicts m nq0 ≠ LoopOutcome.outOfFuel ∧
    roundsOf (runLoop verdicts m nq0) ≤ m + 1 := by
  constructor
  · exact runFuel_not_outOfFuel verdicts m m 0 nq0 (by omega)
  · cases hrun : runLoop verdicts m nq0 with
    | finalized c =>
      have := runFuel_rounds_bounds verdicts m (m + 1) 0 nq0 c (Or.inl hrun)
      simp only [roundsOf]
      omega
    | halted c =>
      have := runFuel_rounds_bounds verdicts m (m + 1) 0 nq0 c (Or.inr hrun)
      simp only [roundsOf]
      omega
    | outOfFuel => simp [roundsOf]

/-- Counterexample to claim C3 as stated: with `maxRounds = 2` and every
verdict insufficient with no follow-up queries, the run ends after one
round without ever reaching finalization. -/
theorem c3_counterexample :
    runLoop (fun _ => ⟨false, "gap".data, []⟩) 2 4 = LoopOutcome.halted 1 ∧
    ∀ c, runLoop (fun _ => ⟨false, "gap".data, []⟩) 2 4 ≠ LoopOutcome.finalized c := by
  have h : runLoop (fun _ => ⟨false, "gap".data, []⟩) 2 4 = LoopOutcome.halted 1 := by
    decide
  refine ⟨h, fun c hc => ?_⟩
  rw [h] at hc
  cases hc

/-- Claim C4 (confirmed): the loop count is incremented by exactly 1 before
each reflection call (after `N` iterations it equals `N`; the first call
turns the absent counter into 1); a round finalizes iff the verdict is
sufficient or the incremented count has reached `maxRounds`; and
`maxRounds = 0` still executes exactly one round before finalizing. -/
theorem c4_round_counter_and_termination_condition :
    (∀ N, counterAfter N = N) ∧
    reflectionLoopCount none = 1 ∧
    (∀ (verdicts : Nat → Verdict) (m k nq fuel : Nat),
      runFuel verdicts m (fuel + 1) k nq = LoopOutcome.finalized (k + 1) ↔
        ((verdicts k).is_sufficient = true ∨ m ≤ k + 1)) ∧
    (∀ (verdicts : Nat → Verdict) (nq0 : Nat),
      runLoop verdicts 0 nq0 = LoopOutcome.finalized 1) := by
  refine ⟨?_, rfl, ?_, ?_⟩
  · intro N
    induction N with
    | zero => rfl
    | succ n ih => simp [counterAfter, reflectionLoopCount, ih]
  · intro verdicts m k nq fuel
    simp only [runFuel]
    cases hev : evaluate_research (verdicts k).is_sufficient
        (reflectionLoopCount (some k)) nq m (verdicts k).follow_up_queries with
    | finalize =>
      have := (evaluate_research_finalize_iff _ _ _ _ _).mp hev
      simp only [reflectionLoopCount, Option.getD_some] at this ⊢
      simpa using this
    | fanout sends =>
      have hcond := evaluate_research_fanout_cond hev
      simp only [reflectionLoopCount, Option.getD_some] at hcond
      cases sends with
      | nil =>
        simp only [reflectionLoopCount, Option.getD_some]
        constructor
        · intro hc; cases hc
        · intro hc; exact absurd hc hcond
      | cons a l =>
        simp only [reflectionLoopCount, Option.getD_some]
        constructor
        · intro hc
          have := runFuel_rounds_bounds verdicts m fuel (k + 1)
            (nq + (verdicts k).follow_up_queries.length * 2) (k + 1) (Or.inl hc)
          omega
        · intro hc; exact absurd hc hcond
  · intro verdicts nq0
    simp [runLoop, runFuel, evaluate_research, reflectionLoopCount]

theorem map_id_followupSendLoop :
    ∀ (qs : List Str) (nq idx : Nat),
    (followupSendLoop nq idx qs).map SendTask.id =
      List.range' (nq + idx * 2) (qs.length * 2) := by
  intro qs
  induction qs with
  | nil => intro nq idx; simp [followupSendLoop]
  | cons q rest ih =>
    intro nq idx
    have harith : rest.length * 2 + 2 = (q :: rest).length * 2 := by
      simp [List.length_cons]; ring
    rw [← harith]
    rw [List.range'_succ, List.range'_succ]
    simp only [followupSendLoop, List.map_cons]
    rw [ih nq (idx + 1)]
    have h1 : nq + (idx + 1) * 2 = nq + idx * 2 + 1 + 1 := by ring
    rw [h1]

theorem map_id_continueSendLoop :
    ∀ (qs : List Str) (idx : Nat),
    (continueSendLoop idx qs).map SendTask.id =
      List.range' (idx * 2) (qs.length * 2) := by
  intro qs
  induction qs with
  | nil => intro idx; simp [continueSendLoop]
  | cons q rest ih =>
    intro idx
    have harith : rest.length * 2 + 2 = (q :: rest).length * 2 := by
      simp [List.length_cons]; ring
    rw [← harith]
    rw [List.range'_succ, List.range'_succ]
    simp only [continueSendLoop, List.map_cons]
    rw [ih (idx + 1)]
    have h1 : (idx + 1) * 2 = idx * 2 + 1 + 1 := by ring
    rw [h1]

theorem map_id_followRounds :
    ∀ (rounds : List (List Str)) (nq : Nat),
    (followRounds nq rounds).map SendTask.id =
      List.range' nq ((rounds.map List.length).sum * 2) := by
  intro rounds
  induction rounds with
  | nil => intro nq; simp [followRounds]
  | cons r rest ih =>
    intro nq
    simp only [followRounds, List.map_append]
    rw [map_id_followupSendLoop, ih]
    have h1 : nq + r.length * 2 = nq + 1 * (r.length * 2) := by ring
    rw [show nq + 0 * 2 = nq from by ring, h1, List.range'_append]
    congr 1
    simp [List.map_cons, List.sum_cons]
    ring

/-- Claim C5 (confirmed): a round with `N` queries spawns exactly `N * 2`
tasks (one per backend kind); the initial round uses ordinals
`0 .. N*2 - 1` and every later round continues numbering exactly where the
accumulated `search_query` length left off, so over the whole run the task
ordinals are exactly `0 .. 2*(total queries) - 1`, each assigned once. -/
theorem c5_task_ordinals_fresh_across_rounds (rounds : List (List Str)) :
    (graphRunSends rounds).map SendTask.id =
      List.range ((rounds.map List.length).sum * 2) ∧
    ((graphRunSends rounds).map SendTask.id).Nodup ∧
    (∀ qs : List Str, (continue_to_web_research qs).length = qs.length * 2) ∧
    (∀ (nq : Nat) (qs : List Str), (followupSendLoop nq 0 qs).length = qs.length * 2) := by
  have hmain : (graphRunSends rounds).map SendTask.id =
      List.range ((rounds.map List.length).sum * 2) := by
    cases rounds with
    | nil => simp [graphRunSends]
    | cons r0 rest =>
      simp only [graphRunSends, List.map_append, continue_to_web_research]
      rw [map_id_continueSendLoop, map_id_followRounds]
      rw [List.range_eq_range']
      have happ := List.range'_append 0 (r0.length * 2) ((rest.map List.length).sum * 2) 1
      simp only [Nat.one_mul, Nat.zero_add, Nat.zero_mul] at happ ⊢
      rw [happ]
      congr 1
      simp only [List.map_cons, List.sum_cons]
      ring
  refine ⟨hmain, ?_, ?_, ?_⟩
  · rw [hmain]
    exact List.nodup_range _
  · intro qs
    have := map_id_continueSendLoop qs 0
    have hlen := congrArg List.length this
    simpa [continue_to_web_research] using hlen
  · intro nq qs
    have := map_id_followupSendLoop qs nq 0
    have hlen := congrArg List.length this
    simpa using hlen

/-- Counterexample to claim C6 as stated: the gathered-source list ends
with 4 entries, not 3 — `u1` is registered once per web task, not
deduplicated. -/
theorem c6_counterexample :
    c6Sources.length = 4 ∧ c6Sources.length ≠ 3 ∧
    (c6Sources.filter (fun s => s.value == "u1".data)).length = 2 := by
  decide

/-- Claim C6 (corrected): in the §8 scenario the gathered sources end with
4 entries — `u1` twice, each web task numbering its own results from
`[0]` — the two knowledge-base tasks produce placeholder timeout findings
with no sources, reflection runs once with loop count 1, and the round
then routes to finalization regardless of the sufficient flag. -/
theorem c6_scenario_behaviour :
    c6Sources.length = 4 ∧
    (c6Sources.filter (fun s => s.value == "u1".data)).length = 2 ∧
    c6Sources.map Source.short_url =
      ["[0]".data, "[1]".data, "[0]".data, "[1]".data] ∧
    (knowledge_base_research c6Q1 c6KB).sources_gathered = [] ∧
    (knowledge_base_research c6Q1 c6KB).web_research_result =
      ["Vector database search timed out after 30 seconds".data] ∧
    (knowledge_base_research c6Q2 c6KB).web_research_result =
      ["Vector database search timed out after 30 seconds".data] ∧
    c6SearchQueries.length = 4 ∧
    reflectionLoopCount none = 1 ∧
    (∀ (s : Bool) (fq : List Str),
      evaluate_research s (reflectionLoopCount none) c6SearchQueries.length 1 fq =
        RouteResult.finalize) := by
  refine ⟨by decide, by decide, by decide, by decide, by decide, by decide,
    by decide, rfl, ?_⟩
  intro s fq
  apply (evaluate_research_finalize_iff _ _ _ _ _).mpr
  right
  simp [reflectionLoopCount]

theorem webMarker_chars {i : Nat} {c : Char} (h : c ∈ webMarker i) :
    isMarkerChar c = true := by
  simp only [webMarker] at h
  rcases List.mem_cons.mp h with h1 | h1
  · simp [isMarkerChar, h1]
  · rcases List.mem_append.mp h1 with h2 | h2
    · simp [isMarkerChar, numStr_digits h2]
    · have hc : c = ']' := by simpa using h2
      simp [isMarkerChar, hc]

theorem webMarker_ne_nil (i : Nat) : webMarker i ≠ [] := by
  simp [webMarker]

/-- An infix that avoids every character of `A` and is non-empty lies
entirely in `B`. -/
theorem infix_append_avoid {q A B : Str} (hA : ∀ c ∈ A, c ∉ q) (hq : q ≠ [])
    (h : q <:+: A ++ B) : q <:+: B := by
  obtain ⟨pre, post, heq⟩ := h
  rw [List.append_assoc] at heq
  rcases List.append_eq_append_iff.mp heq with ⟨a', hA', hX⟩ | ⟨c', hpre, hB⟩
  · -- A = pre ++ a', q ++ post = a' ++ B
    cases a' with
    | nil =>
      simp only [List.nil_append] at hX
      obtain ⟨qh, qt, hqe⟩ := List.exists_cons_of_ne_nil hq
      exact ⟨[], post, by simp [hX]⟩
    | cons x xs =>
      obtain ⟨qh, qt, hqe⟩ := List.exists_cons_of_ne_nil hq
      subst hqe
      simp only [List.cons_append] at hX
      have hx : qh = x := by injection hX
      have hxA : qh ∈ A := by
        rw [hA', hx]
        exact List.mem_append.mpr (Or.inr (List.mem_cons_self _ _))
      exact absurd (List.mem_cons_self qh qt) (hA qh hxA)
  · -- pre = A ++ c', B = c' ++ q ++ post
    exact ⟨c', post, by rw [hB, List.append_assoc]⟩

/-- Any prefix of `repAux pat rep fuel s` avoiding the characters of a
non-empty `rep` is a prefix of `s` itself. -/
theorem prefix_repAux (pat rep : Str) (hrep : rep ≠ []) :
    ∀ fuel s q, q <+: repAux pat rep fuel s → (∀ c ∈ rep, c ∉ q) → q <+: s := by
  intro fuel
  induction fuel with
  | zero => intro s q h _; simpa [repAux] using h
  | succ fuel ih =>
    intro s q h hq
    match s with
    | [] =>
      simp only [repAux] at h
      simpa using h
    | c :: rest =>
      simp only [repAux] at h
      by_cases hp : pat.isPrefixOf (c :: rest)
      · rw [if_pos hp] at h
        cases q with
        | nil => exact List.nil_prefix
        | cons qh qt =>
          obtain ⟨rh, rt, hre⟩ := List.exists_cons_of_ne_nil hrep
          rw [hre, List.cons_append] at h
          have := (List.cons_prefix_cons.mp h).1
          have hrhrep : rh ∈ rep := by rw [hre]; exact List.mem_cons_self _ _
          have : qh ∈ rep := by rw [this]; exact hrhrep
          exact absurd (List.mem_cons_self qh qt) (hq qh this)
      · rw [if_neg hp] at h
        cases q with
        | nil => exact List.nil_prefix
        | cons qh qt =>
          obtain ⟨hqc, hqt⟩ := List.cons_prefix_cons.mp h
          have hqt' : qt <+: rest :=
            ih rest qt hqt (fun x hx hxq => hq x hx (List.mem_cons_of_mem _ hxq))
          exact List.cons_prefix_cons.mpr ⟨hqc, hqt'⟩

/-- After `repAux`, the pattern itself no longer occurs, provided the
replacement is non-empty and shares no character with the pattern. -/
theorem pat_not_infix_repAux (pat rep : Str) (hpat : pat ≠ []) (hrep : rep ≠ [])
    (hA : ∀ c ∈ rep, c ∉ pat) :
    ∀ fuel s, s.length ≤ fuel → ¬ pat <:+: repAux pat rep fuel s := by
  intro fuel
  induction fuel with
  | zero =>
    intro s hs h
    have : s = [] := List.eq_nil_of_length_eq_zero (Nat.le_zero.mp hs)
    subst this
    simp only [repAux] at h
    exact hpat (List.infix_nil.mp h)
  | succ fuel ih =>
    intro s hs h
    match s with
    | [] =>
      simp only [repAux] at h
      exact hpat (List.infix_nil.mp h)
    | c :: rest =>
      have hplen : 1 ≤ pat.length := by
        cases pat with
        | nil => exact absurd rfl hpat
        | cons a l => simp
      simp only [repAux] at h
      by_cases hp : pat.isPrefixOf (c :: rest)
      · rw [if_pos hp] at h
        have h2 : pat <:+: repAux pat rep fuel ((c :: rest).drop pat.length) :=
          infix_append_avoid hA hpat h
        refine ih _ ?_ h2
        simp only [List.length_drop, List.length_cons]
        simp only [List.length_cons] at hs
        omega
      · rw [if_neg hp] at h
        rcases List.infix_cons_iff.mp h with h | h
        · obtain ⟨ph, pt, hpe⟩ := List.exists_cons_of_ne_nil hpat
          rw [hpe] at h
          obtain ⟨hpc, hptp⟩ := List.cons_prefix_cons.mp h
          have hpt : pt <+: rest := by
            refine prefix_repAux (ph :: pt) rep hrep fuel rest pt hptp ?_
            intro x hx hxq
            exact hA x hx (by rw [hpe]; exact List.mem_cons_of_mem _ hxq)
          have : pat <+: c :: rest := by
            rw [hpe]
            exact List.cons_prefix_cons.mpr ⟨hpc, hpt⟩
          exact hp (List.isPrefixOf_iff_prefix.mpr this)
        · refine ih rest ?_ h
          simp only [List.length_cons] at hs
          omega

/-- `repAux` introduces no new occurrence of a string `q` avoiding the
characters of the non-empty replacement. -/
theorem not_infix_repAux_preserve (pat rep : Str) (hpat : pat ≠ []) (hrep : rep ≠ []) :
    ∀ fuel s q, (∀ c ∈ rep, c ∉ q) → ¬ q <:+: s →
      ¬ q <:+: repAux pat rep fuel s := by
  intro fuel
  induction fuel with
  | zero => intro s q _ hns h; exact hns (by simpa [repAux] using h)
  | succ fuel ih =>
    intro s q hq hns h
    match s with
    | [] => exact hns (by simpa [repAux] using h)
    | c :: rest =>
      have hqnil : q ≠ [] := by
        intro hqe
        exact hns (hqe ▸ List.nil_infix)
      have hplen : 1 ≤ pat.length := by
        cases pat with
        | nil => exact absurd rfl hpat
        | cons a l => simp
      simp only [repAux] at h
      by_cases hp : pat.isPrefixOf (c :: rest)
      · rw [if_pos hp] at h
        have h2 := infix_append_avoid hq hqnil h
        refine ih _ q hq ?_ h2
        intro hcontra
        exact hns (hcontra.trans (List.drop_suffix _ _).isInfix)
      · rw [if_neg hp] at h
        rcases List.infix_cons_iff.mp h with h | h
        · obtain ⟨qh, qt, hqe⟩ := List.exists_cons_of_ne_nil hqnil
          rw [hqe] at h
          obtain ⟨hqc, hqtp⟩ := List.cons_prefix_cons.mp h
          have hqt : qt <+: rest := by
            refine prefix_repAux pat rep hrep fuel rest qt hqtp ?_
            intro x hx hxq
            exact hq x hx (by rw [hqe]; exact List.mem_cons_of_mem _ hxq)
          refine hns ?_
          have : q <+: c :: rest := by
            rw [hqe]
            exact List.cons_prefix_cons.mpr ⟨hqc, hqt⟩
          exact this.isInfix
        · refine ih rest q hq ?_ h
          intro hcontra
          exact hns (List.infix_cons hcontra)

theorem pat_not_infix_replaceAll {s pat rep : Str} (hpat : pat ≠ []) (hrep : rep ≠ [])
    (hA : ∀ c ∈ rep, c ∉ pat) : ¬ pat <:+: replaceAll s pat rep := by
  rw [replaceAll, if_neg hpat]
  exact pat_not_infix_repAux pat rep hpat hrep hA s.length s (Nat.le_refl _)

theorem not_infix_replaceAll_preserve {s pat rep q : Str} (hpat : pat ≠ [])
    (hrep : rep ≠ []) (hq : ∀ c ∈ rep, c ∉ q) (hns : ¬ q <:+: s) :
    ¬ q <:+: replaceAll s pat rep := by
  rw [replaceAll, if_neg hpat]
  exact not_infix_repAux_preserve pat rep hpat hrep s.length s q hq hns

theorem marker_avoids {q : Str} (hq : ∀ c ∈ q, isMarkerChar c = false) (i : Nat) :
    ∀ c ∈ webMarker i, c ∉ q := by
  intro c hc hcq
  have h1 := webMarker_chars hc
  have h2 := hq c hcq
  rw [h1] at h2
  cases h2

/-- A string free of marker characters that does not occur in the running
text does not occur in it at any later point of the `web_research` loop. -/
theorem webLoop_text_preserve :
    ∀ (items : List WebItem) (idx : Nat) (text : Str) (srcs : List Source) (q : Str),
    (∀ c ∈ q, isMarkerChar c = false) →
    (∀ it ∈ items, it.link ≠ []) →
    ¬ q <:+: text →
    ¬ q <:+: (webLoop idx text srcs items).1 := by
  intro items
  induction items with
  | nil => intro idx text srcs q _ _ hns; simpa [webLoop] using hns
  | cons item rest ih =>
    intro idx text srcs q hq hlinks hns
    have hlink : item.link ≠ [] := hlinks item (List.mem_cons_self _ _)
    simp only [webLoop, if_pos hlink]
    refine ih _ _ _ q hq (fun it hit => hlinks it (List.mem_cons_of_mem _ hit)) ?_
    exact not_infix_replaceAll_preserve hlink (webMarker_ne_nil idx)
      (marker_avoids hq idx) hns

/-- After the `web_research` loop, no gathered link occurs in the finding
text any more (each occurrence was replaced by its `[idx]` marker),
provided every link is non-empty and free of marker characters. -/
theorem webLoop_no_link_infix :
    ∀ (items : List WebItem) (idx : Nat) (text : Str) (srcs : List Source),
    (∀ it ∈ items, it.link ≠ [] ∧ ∀ c ∈ it.link, isMarkerChar c = false) →
    ∀ it ∈ items, ¬ it.link <:+: (webLoop idx text srcs items).1 := by
  intro items
  induction items with
  | nil => intro idx text srcs _ it hit; simp at hit
  | cons item rest ih =>
    intro idx text srcs hgood it hit
    obtain ⟨hlink, hchars⟩ := hgood item (List.mem_cons_self _ _)
    have hrestgood : ∀ x ∈ rest, x.link ≠ [] ∧ ∀ c ∈ x.link, isMarkerChar c = false :=
      fun x hx => hgood x (List.mem_cons_of_mem _ hx)
    simp only [webLoop, if_pos hlink]
    rcases List.mem_cons.mp hit with hit | hit
    · subst hit
      refine webLoop_text_preserve rest (idx + 1) _ _ it.link hchars
        (fun x hx => (hrestgood x hx).1) ?_
      exact pat_not_infix_replaceAll hlink (webMarker_ne_nil idx)
        (marker_avoids hchars idx)
    · exact ih (idx + 1) _ _ hrestgood it hit

/-- Claim C7 (corrected, provable part): for a web retrieval task whose
links are non-empty and contain no marker character (no brackets, no
digits), the finalized finding text contains no occurrence of any raw
link — each was replaced by its `[idx]` marker. -/
theorem c7_web_raw_identity_replaced (items : List WebItem)
    (h : ∀ it ∈ items, it.link ≠ [] ∧ ∀ c ∈ it.link, isMarkerChar c = false) :
    ∀ it ∈ items, ¬ it.link <:+: webText items := by
  intro it hit
  exact webLoop_no_link_infix items 0 _ [] h it hit

/-- Witness for C7's amended theorem at a concrete web task. -/
theorem c7_web_raw_identity_replaced_witness :
    ¬ ("u".data : Str) <:+:
      webText [⟨"u".data, "t".data, "s u s".data⟩] :=
  c7_web_raw_identity_replaced [⟨"u".data, "t".data, "s u s".data⟩]
    (by decide) ⟨"u".data, "t".data, "s u s".data⟩ (by decide)

set_option maxRecDepth 8000 in
/-- Counterexample to claim C7 as stated: a knowledge-base finding keeps
the raw document path (the `Source:` line is not replaced by the marker),
and a web snippet containing marker-shaped text yields a `[5]` marker in
the finding text with no corresponding registry entry. -/
theorem c7_counterexample :
    ((knowledge_base_research "q".data
        (.docs [⟨"p.md".data, "zzz".data, "0.9".data, "7".data,
          none⟩])).web_research_result.any (fun t =>
        decide (("p.md".data : Str) <:+: t)) = true) ∧
    ("[5]".data : Str) <:+: webText [⟨"u".data, "t".data, "s [5] u".data⟩] ∧
    (webSources [⟨"u".data, "t".data, "s [5] u".data⟩]).map Source.short_url =
      ["[0]".data] := by
  decide

theorem endMarkersAt_append (off : Nat) (L L' : List Citation) :
    endMarkersAt off (L ++ L') = endMarkersAt off L ++ endMarkersAt off L' := by
  simp [endMarkersAt, List.filter_append]

theorem endMarkersAt_of_ne (off : Nat) {L : List Citation}
    (h : ∀ c ∈ L, c.end_index ≠ off) : endMarkersAt off L = [] := by
  have : L.filter (fun c => c.end_index == off) = [] := by
    rw [List.filter_eq_nil_iff]
    intro a ha
    simpa using h a ha
  simp [endMarkersAt, this]

theorem spliceSpec_nil_citations : ∀ (text : Str) (off : Nat),
    spliceSpec off text [] = text := by
  intro text
  induction text with
  | nil => intro off; simp [spliceSpec, endMarkersAt]
  | cons ch rest ih => intro off; simp [spliceSpec, endMarkersAt, ih]

theorem spliceSpec_high : ∀ (text : Str) (off : Nat) (L : List Citation),
    (∀ c ∈ L, c.end_index < off) → spliceSpec off text L = text := by
  intro text
  induction text with
  | nil =>
    intro off L h
    simp [spliceSpec, endMarkersAt_of_ne off (fun c hc => by have := h c hc; omega)]
  | cons ch rest ih =>
    intro off L h
    rw [spliceSpec, endMarkersAt_of_ne off (fun c hc => by have := h c hc; omega)]
    rw [ih (off + 1) L (fun c hc => by have := h c hc; omega)]
    simp

theorem spliceSpec_append_last :
    ∀ (text : Str) (off : Nat) (L' : List Citation) (c : Citation),
    off ≤ c.end_index → c.end_index ≤ off + text.length →
    (∀ d ∈ L', d.end_index ≤ c.end_index) →
    spliceSpec off text (L' ++ [c]) =
      spliceSpec off (text.take (c.end_index - off)) L' ++ markerOf c ++
        text.drop (c.end_index - off) := by
  intro text
  induction text with
  | nil =>
    intro off L' c hlo hhi hL
    have he : c.end_index = off := by simp at hhi; omega
    rw [spliceSpec, endMarkersAt_append]
    have h1 : endMarkersAt off [c] = markerOf c := by
      simp [endMarkersAt, he]
    simp [spliceSpec, h1]
  | cons ch rest ih =>
    intro off L' c hlo hhi hL
    by_cases he : c.end_index = off
    · have htake : c.end_index - off = 0 := by omega
      rw [htake]
      rw [spliceSpec, endMarkersAt_append]
      have h1 : endMarkersAt off [c] = markerOf c := by
        simp [endMarkersAt, he]
      have h2 : spliceSpec (off + 1) rest (L' ++ [c]) = rest := by
        refine spliceSpec_high rest (off + 1) (L' ++ [c]) ?_
        intro d hd
        rcases List.mem_append.mp hd with hd | hd
        · have := hL d hd; omega
        · simp at hd; subst hd; omega
      rw [h1, h2]
      simp [spliceSpec]
    · have hlt : off < c.end_index := by omega
      have hd1 : c.end_index - off = (c.end_index - (off + 1)) + 1 := by omega
      rw [hd1, List.take_succ_cons, List.drop_succ_cons]
      rw [spliceSpec, endMarkersAt_append]
      have h1 : endMarkersAt off [c] = [] := by
        simp [endMarkersAt, he]
      rw [h1]
      rw [ih (off + 1) L' c (by omega) (by simp at hhi ⊢; omega) hL]
      rw [spliceSpec]
      simp [List.append_assoc]

theorem length_insertMarker {A : Str} {c : Citation} (h : c.end_index ≤ A.length) :
    (insertMarker A c).length = A.length + (markerOf c).length := by
  simp only [insertMarker, List.length_append, List.length_take, List.length_drop]
  omega

theorem foldl_insertMarker_append :
    ∀ (L : List Citation) (A B : Str),
    (∀ c ∈ L, c.end_index ≤ A.length) →
    L.foldl insertMarker (A ++ B) = L.foldl insertMarker A ++ B := by
  intro L
  induction L with
  | nil => intro A B _; simp
  | cons c L ih =>
    intro A B h
    have hc : c.end_index ≤ A.length := h c (List.mem_cons_self _ _)
    have hstep : insertMarker (A ++ B) c = insertMarker A c ++ B := by
      rw [insertMarker, insertMarker,
        List.take_append_of_le_length hc, List.drop_append_of_le_length hc]
      simp [List.append_assoc]
    simp only [List.foldl_cons, hstep]
    refine ih (insertMarker A c) B ?_
    intro d hd
    have := h d (List.mem_cons_of_mem _ hd)
    rw [length_insertMarker hc]
    omega

theorem foldl_insertMarker_eq_splice :
    ∀ (l : List Citation) (text : Str),
    l.Pairwise (fun a b => b.end_index ≤ a.end_index) →
    (∀ c ∈ l, c.end_index ≤ text.length) →
    l.foldl insertMarker text = spliceSpec 0 text l.reverse := by
  intro l
  induction l with
  | nil => intro text _ _; simp [spliceSpec_nil_citations]
  | cons c l ih =>
    intro text hpair hends
    obtain ⟨hhead, htail⟩ := List.pairwise_cons.mp hpair
    have hce : c.end_index ≤ text.length := hends c (List.mem_cons_self _ _)
    have hlentake : (text.take c.end_index).length = c.end_index := by
      rw [List.length_take]
      omega
    have hstep : insertMarker text c =
        text.take c.end_index ++ (markerOf c ++ text.drop c.end_index) := by
      rw [insertMarker, List.append_assoc]
    rw [List.foldl_cons, hstep]
    rw [foldl_insertMarker_append l _ _ (by
      intro d hd
      rw [hlentake]
      exact hhead d hd)]
    rw [ih (text.take c.end_index) htail (by
      intro d hd
      rw [hlentake]
      exact hhead d hd)]
    rw [List.reverse_cons]
    rw [spliceSpec_append_last text 0 l.reverse c (Nat.zero_le _) (by omega) (by
      intro d hd
      exact hhead d (List.mem_reverse.mp hd))]
    simp

theorem keyGE_total {a b : Citation} (h : keyGE a b = false) : keyGE b a = true := by
  simp only [keyGE, decide_eq_false_iff_not, decide_eq_true_eq] at h ⊢
  omega

theorem keyGE_trans {a b c : Citation} (h1 : keyGE a b = true) (h2 : keyGE b c = true) :
    keyGE a c = true := by
  simp only [keyGE, decide_eq_true_eq] at h1 h2 ⊢
  omega

theorem mem_insDesc (c : Citation) : ∀ (l : List Citation) (x : Citation),
    x ∈ insDesc c l ↔ x = c ∨ x ∈ l := by
  intro l
  induction l with
  | nil => intro x; simp [insDesc]
  | cons d rest ih =>
    intro x
    by_cases h : keyGE d c = true
    · simp only [insDesc, if_pos h, List.mem_cons, ih]
      tauto
    · simp only [insDesc, if_neg h, List.mem_cons]

theorem pairwise_insDesc {c : Citation} : ∀ {l : List Citation},
    l.Pairwise (fun a b => keyGE a b = true) →
    (insDesc c l).Pairwise (fun a b => keyGE a b = true) := by
  intro l
  induction l with
  | nil => intro _; simp [insDesc]
  | cons d rest ih =>
    intro h
    obtain ⟨hd, hrest⟩ := List.pairwise_cons.mp h
    by_cases hk : keyGE d c = true
    · rw [insDesc, if_pos hk]
      refine List.pairwise_cons.mpr ⟨?_, ih hrest⟩
      intro x hx
      rcases (mem_insDesc c rest x).mp hx with hx | hx
      · rw [hx]; exact hk
      · exact hd x hx
    · rw [insDesc, if_neg hk]
      have hcd : keyGE c d = true := keyGE_total (Bool.eq_false_iff.mpr hk)
      refine List.pairwise_cons.mpr ⟨?_, h⟩
      intro x hx
      rcases List.mem_cons.mp hx with hx | hx
      · rw [hx]; exact hcd
      · exact keyGE_trans hcd (hd x hx)

theorem sortDesc_pairwise (l : List Citation) :
    (sortDesc l).Pairwise (fun a b => keyGE a b = true) := by
  suffices h : ∀ (l' : List Citation) (acc : List Citation),
      acc.Pairwise (fun a b => keyGE a b = true) →
      (l'.foldl (fun acc c => insDesc c acc) acc).Pairwise
        (fun a b => keyGE a b = true) by
    exact h l [] (by simp)
  intro l'
  induction l' with
  | nil => intro acc hacc; simpa using hacc
  | cons c rest ih =>
    intro acc hacc
    exact ih (insDesc c acc) (pairwise_insDesc hacc)

theorem insDesc_perm (c : Citation) :
    ∀ (l : List Citation), List.Perm (insDesc c l) (c :: l) := by
  intro l
  induction l with
  | nil => simp [insDesc]
  | cons d rest ih =>
    by_cases h : keyGE d c = true
    · rw [insDesc, if_pos h]
      exact (ih.cons d).trans (List.Perm.swap c d rest)
    · rw [insDesc, if_neg h]

theorem sortDesc_perm (l : List Citation) : List.Perm (sortDesc l) l := by
  suffices h : ∀ (l' acc : List Citation),
      List.Perm (l'.foldl (fun acc c => insDesc c acc) acc) (acc ++ l') by
    simpa using h l []
  intro l'
  induction l' with
  | nil => intro acc; simp
  | cons c rest ih =>
    intro acc
    refine (ih (insDesc c acc)).trans ?_
    have h1 : List.Perm (insDesc c acc ++ rest) ((c :: acc) ++ rest) :=
      (insDesc_perm c acc).append_right rest
    refine h1.trans ?_
    simpa using List.perm_middle.symm

theorem mem_sortDesc {l : List Citation} {x : Citation} (h : x ∈ sortDesc l) : x ∈ l :=
  (sortDesc_perm l).mem_iff.mp h

theorem sublist_insertMarker (text : Str) (c : Citation) :
    List.Sublist text (insertMarker text c) := by
  rw [insertMarker, List.append_assoc]
  nth_rewrite 1 [(List.take_append_drop c.end_index text).symm]
  exact List.Sublist.append (List.Sublist.refl _) (List.sublist_append_right _ _)

theorem sublist_foldl_insertMarker :
    ∀ (l : List Citation) (text : Str), List.Sublist text (l.foldl insertMarker text) := by
  intro l
  induction l with
  | nil => intro text; simp
  | cons c rest ih =>
    intro text
    rw [List.foldl_cons]
    exact (sublist_insertMarker text c).trans (ih (insertMarker text c))

/-- Claim C9 (confirmed): `insert_citation_markers` with an empty citation
list returns the text unchanged; the ascending order it processes is a
permutation of the input; the original text is a subsequence of the
output; and when every `end_index` lies within the text the output is
exactly the original text with each citation's markers spliced in at that
citation's original `end_index` boundary. -/
theorem c9_insert_citation_markers_splices (text : Str) (citations_list : List Citation) :
    insert_citation_markers text [] = text ∧
    List.Perm (ascOrder citations_list) citations_list ∧
    List.Sublist text (insert_citation_markers text citations_list) ∧
    ((∀ c ∈ citations_list, c.end_index ≤ text.length) →
      insert_citation_markers text citations_list =
        spliceSpec 0 text (ascOrder citations_list)) := by
  refine ⟨rfl, ?_, ?_, ?_⟩
  · exact (List.reverse_perm _).trans (sortDesc_perm citations_list)
  · exact sublist_foldl_insertMarker (sortDesc citations_list) text
  · intro h
    refine foldl_insertMarker_eq_splice (sortDesc citations_list) text ?_ ?_
    · refine (sortDesc_pairwise citations_list).imp ?_
      intro a b hab
      simp only [keyGE, decide_eq_true_eq] at hab
      omega
    · intro c hc
      exact h c (mem_sortDesc hc)

/-- Witness for C9 at a concrete text and citation list. -/
theorem c9_insert_citation_markers_splices_witness :
    insert_citation_markers "abcd".data
        [⟨0, 2, [⟨"L".data, "S".data⟩]⟩, ⟨1, 4, [⟨"M".data, "T".data⟩]⟩] =
      spliceSpec 0 "abcd".data
        (ascOrder [⟨0, 2, [⟨"L".data, "S".data⟩]⟩, ⟨1, 4, [⟨"M".data, "T".data⟩]⟩]) :=
  (c9_insert_citation_markers_splices "abcd".data
    [⟨0, 2, [⟨"L".data, "S".data⟩]⟩, ⟨1, 4, [⟨"M".data, "T".data⟩]⟩]).2.2.2
    (by decide)

/-- Witness for C4 at a concrete verdict stream: a sufficient verdict
finalizes the first round. -/
theorem c4_round_counter_and_termination_condition_witness :
    runFuel (fun _ => ⟨true, "g".data, []⟩) 5 (0 + 1) 0 0 =
      LoopOutcome.finalized (0 + 1) :=
  (c4_round_counter_and_termination_condition.2.2.1
    (fun _ => ⟨true, "g".data, []⟩) 5 0 0 0).mpr (Or.inl rfl)
